import Mathlib

/-!
Shallow embedding of `src/matrix.py` (class `Matrix`) and verification of the
frozen claims about it.

The Python class stores a matrix as a list of rows (`self._list`), each row a
list of numbers.  We embed matrices as `List (List ℚ)` (ℚ instantiates the
generic numeric element type exactly, so that `1/det` is exact division).
Python exceptions (`IndexError` from list indexing, `ValueError` raised by the
checks, `TypeError` from operations on `None`) are embedded with an
`Except PyErr` result type; `None` results are embedded as `Option`.
-/

namespace MatrixPy

/-- Python exceptions thrown by the code paths of `matrix.py`. -/
inductive PyErr where
  | indexError : PyErr
  | typeError : PyErr
  | valueError : String → PyErr
deriving DecidableEq, Repr

/-- The internal storage `self._list` of a `Matrix`: a list of rows. -/
abbrev Mat : Type := List (List ℚ)

/-- Message of the `ValueError` in `__iadd__`. -/
def msgDim : String := "The two matrices must have equal dimensions"

/-- Message of the `ValueError` in `determinant`. -/
def msgNotSquare : String := "A non-square matrix has no determinant"

/-- Message of the `ValueError` in `__matmul__`. -/
def msgMatmul : String := "The first matrix must have as many columns as the second has rows"

/-- Message of the `ValueError` in `__pow__` (apostrophe of the source text elided). -/
def msgPow : String := "Cannot raise a non-square matrix"

/-- Element access `self[i, j]` (the integer path of `__getitem__`:
`self._list[i][j]`) for the non-negative indices the class uses internally;
out of range raises `IndexError`. -/
def getE (m : Mat) (i j : ℕ) : Except PyErr ℚ :=
  match m.get? i with
  | none => .error .indexError
  | some row =>
    match row.get? j with
    | none => .error .indexError
    | some x => .ok x

/-- Total element access used to state results (defaults outside the range;
theorems only use it at in-range positions). -/
def get (m : Mat) (i j : ℕ) : ℚ :=
  (m.getD i []).getD j 0

/-- Property `rows`: `len(self._list)`. -/
def rowsOf (m : Mat) : ℕ := m.length

/-- Property `columns`: `len(self._list[0])`; on a matrix with no rows the
indexing `self._list[0]` raises `IndexError`. -/
def columnsE (m : Mat) : Except PyErr ℕ :=
  match m with
  | [] => .error .indexError
  | row :: _ => .ok row.length

/-- Property `size`: the pair `(self.rows, self.columns)`. -/
def sizeE (m : Mat) : Except PyErr (ℕ × ℕ) :=
  match columnsE m with
  | .error e => .error e
  | .ok c => .ok (m.length, c)

/-- Property `is_square`: `self.rows == self.columns`. -/
def is_squareE (m : Mat) : Except PyErr Bool :=
  match columnsE m with
  | .error e => .error e
  | .ok c => .ok (m.length == c)

/-- Data-model invariant of §3 of the spec: every row has the length of row 0.
All matrices built by the constructors satisfy it. -/
def Rect (m : Mat) : Prop := ∀ row ∈ m, row.length = (m.headD []).length

instance (m : Mat) : Decidable (Rect m) := by
  unfold Rect
  infer_instance

/-- The matrix `(range r).map fun i => (range c).map (f i)`: the result of
filling a fresh `r × c` matrix with `f`, used to state results. -/
def mkMat (r c : ℕ) (f : ℕ → ℕ → ℚ) : Mat :=
  (List.range r).map fun i => (List.range c).map (f i)

/-- Runs a fallible element producer over a list of indices, left to right,
stopping at the first exception - the evaluation order of the Python loops
and comprehensions. -/
def seqE (f : ℕ → Except PyErr α) : List ℕ → Except PyErr (List α)
  | [] => .ok []
  | i :: rest =>
    match f i with
    | .error e => .error e
    | .ok x =>
      match seqE f rest with
      | .error e => .error e
      | .ok xs => .ok (x :: xs)

/-- `Matrix.zero(r, c).fill(f)`: builds a fresh `r × c` matrix whose `(i,j)`
entry is produced by `f i j`, iterating rows then columns exactly like
`fill`; the first exception raised by `f` propagates. -/
def fillNew (r c : ℕ) (f : ℕ → ℕ → Except PyErr ℚ) : Except PyErr Mat :=
  seqE (fun i => seqE (f i) (List.range c)) (List.range r)

/-- Constructor `Matrix(rows)` (`__init__`): empty outer list or empty first
row gives the canonical empty matrix; otherwise a zero matrix of the shape of
`rows` is filled with `rows[r][c]` (raising `IndexError` if a later row is
shorter than row 0). -/
def mkMatrix (rows : List (List ℚ)) : Except PyErr Mat :=
  if rows.length = 0 ∨ (rows.headD []).length = 0 then .ok []
  else fillNew rows.length (rows.headD []).length (getE rows)

/-- `Matrix.identity(n)`: a zero `n × n` matrix whose diagonal entries are then
set to 1 (the loop writes `self[i, i] = 1` for `i < n`, always in range). -/
def identityM (n : ℕ) : Mat :=
  mkMat n n fun i j => if i = j then 1 else 0

/-- Method `copy`: `Matrix.zero(*self.size).fill(lambda r, c: self[r, c])`.
The `size` query raises `IndexError` on a matrix with no rows. -/
def copyE (m : Mat) : Except PyErr Mat :=
  match sizeE m with
  | .error e => .error e
  | .ok (r, c) => fillNew r c (getE m)

/-- Operator `*=` (`__imul__`): `self.fill(lambda r, c: self[r, c] * k)`.
The fill loop reads `self.columns` only when there is at least one row. -/
def imulE (m : Mat) (k : ℚ) : Except PyErr Mat :=
  fillNew m.length (m.headD []).length fun i j =>
    match getE m i j with
    | .error e => .error e
    | .ok x => .ok (x * k)

/-- Operator `*` (`__mul__`): `self.copy().__imul__(k)`. -/
def smulE (m : Mat) (k : ℚ) : Except PyErr Mat :=
  match copyE m with
  | .error e => .error e
  | .ok c => imulE c k

/-- Operator `+=` (`__iadd__`).  The result is the pair of the final state of
`self` and the exception raised, if any: the size check (which itself queries
`self.size` then `other.size`, each able to raise `IndexError` on an empty
matrix) precedes every element write, so on every failure path the state is
the unchanged `self`.  The element writes of `fill` read each position before
overwriting it, so filling from the original values is exact; a mid-fill
exception is impossible for operands satisfying `Rect` (the data-model
invariant), and its partial state is not modelled. -/
def iaddE (self other : Mat) : Mat × Option PyErr :=
  match sizeE self with
  | .error e => (self, some e)
  | .ok s =>
    match sizeE other with
    | .error e => (self, some e)
    | .ok t =>
      if s ≠ t then (self, some (.valueError msgDim))
      else
        match fillNew self.length (self.headD []).length (fun i j =>
          match getE self i j with
          | .error e => .error e
          | .ok x =>
            match getE other i j with
            | .error e => .error e
            | .ok y => .ok (x + y)) with
        | .error e => (self, some e)
        | .ok m => (m, none)

/-- Operator `+` (`__add__`): `self.copy().__iadd__(other)`; the addition is
performed on a private copy, so neither operand is mutated. -/
def addE (self other : Mat) : Except PyErr Mat :=
  match copyE self with
  | .error e => .error e
  | .ok c =>
    match iaddE c other with
    | (_, some e) => .error e
    | (m, none) => .ok m

/-- The generator sum `sum(self[r, i] * other[i, c] for i in range(other.rows))`
of `__matmul__`, folded left to right from 0. -/
def dotE (self other : Mat) (r c : ℕ) : List ℕ → ℚ → Except PyErr ℚ
  | [], acc => .ok acc
  | i :: rest, acc =>
    match getE self r i with
    | .error e => .error e
    | .ok x =>
      match getE other i c with
      | .error e => .error e
      | .ok y => dotE self other r c rest (acc + x * y)

/-- Operator `@` (`__matmul__`): checks `self.columns == other.rows` (raising
`ValueError` otherwise), then fills a fresh `self.rows × other.columns` matrix
with dot products. -/
def matmulE (self other : Mat) : Except PyErr Mat :=
  match columnsE self with
  | .error e => .error e
  | .ok sc =>
    if sc ≠ other.length then .error (.valueError msgMatmul)
    else
      match columnsE other with
      | .error e => .error e
      | .ok oc =>
        fillNew self.length oc fun r c => dotE self other r c (List.range other.length) 0

/-- Method `submatrix(delr, delc)`: keeps the rows not in `delr` and the
columns not in `delc`, in order; `self.columns` is queried inside the row
comprehension, so a matrix with no kept rows never queries it. -/
def submatrixE (m : Mat) (delr delc : List ℕ) : Except PyErr Mat :=
  seqE (fun i =>
      match columnsE m with
      | .error e => .error e
      | .ok cols => seqE (getE m i) ((List.range cols).filter fun j => decide (¬ j ∈ delc)))
    ((List.range m.length).filter fun i => decide (¬ i ∈ delr))

/-- The Laplace sum `sum(self[0, c] * self.minor(0, c) * (-1)**(c%2) for c in
range(self.columns))` of `determinant`, with the recursive determinant of each
minor supplied as `rec`; folded left to right from the accumulator. -/
def detSum (rec : Mat → Except PyErr ℚ) (self : Mat) : List ℕ → ℚ → Except PyErr ℚ
  | [], acc => .ok acc
  | c :: rest, acc =>
    match getE self 0 c with
    | .error e => .error e
    | .ok x =>
      match submatrixE self [0] [c] with
      | .error e => .error e
      | .ok sub =>
        match rec sub with
        | .error e => .error e
        | .ok d => detSum rec self rest (acc + x * d * (-1) ^ (c % 2))

/-- One unfolding of `determinant`: the `is_square` check (whose `columns`
query raises `IndexError` on a matrix with no rows), the `2 × 2` base case
`a*d - b*c` (reads in source order), and the general Laplace expansion along
row 0, with `rec` standing for the recursive call on each minor submatrix. -/
def detStep (rec : Mat → Except PyErr ℚ) (self : Mat) : Except PyErr ℚ :=
  match columnsE self with
  | .error e => .error e
  | .ok cols =>
    if self.length = cols then
      if self.length = 2 ∧ cols = 2 then
        match getE self 0 0 with
        | .error e => .error e
        | .ok a =>
          match getE self 1 1 with
          | .error e => .error e
          | .ok d =>
            match getE self 0 1 with
            | .error e => .error e
            | .ok b =>
              match getE self 1 0 with
              | .error e => .error e
              | .ok c => .ok (a * d - b * c)
      else detSum rec self (List.range cols) 0
    else .error (.valueError msgNotSquare)

/-- Method `determinant`, with the recursion depth made explicit: every
recursive call is on a submatrix with exactly one row fewer, so `fuel` is
always the exact row count of the argument (see `determinant`).  At fuel 0
the only argument ever passed along that call pattern is the matrix with no
rows, whose determinant raises `IndexError` at the `columns` query, which is
what the fuel-0 stand-in returns. -/
def detF : ℕ → Mat → Except PyErr ℚ
  | 0 => detStep fun _ => .error .indexError
  | fuel + 1 => detStep (detF fuel)

/-- Method `determinant`: the recursive cofactor expansion of the source,
run with recursion depth equal to the row count. -/
def determinant (m : Mat) : Except PyErr ℚ :=
  detF m.length m

/-- Method `minor(r, c)`: `self.submatrix([r], [c]).determinant()`. -/
def minor (m : Mat) (r c : ℕ) : Except PyErr ℚ :=
  match submatrixE m [r] [c] with
  | .error e => .error e
  | .ok sub => determinant sub

/-- Method `transpose`: `Matrix.zero(self.columns, self.rows).fill(lambda r, c:
self[c, r])`. -/
def transposeE (m : Mat) : Except PyErr Mat :=
  match columnsE m with
  | .error e => .error e
  | .ok c => fillNew c m.length fun i j => getE m j i

/-- Method `cofactor`: same shape, entries `self[r, c] * (-1)**((r+c)%2)`. -/
def cofactorE (m : Mat) : Except PyErr Mat :=
  match sizeE m with
  | .error e => .error e
  | .ok (r, c) =>
    fillNew r c fun i j =>
      match getE m i j with
      | .error e => .error e
      | .ok x => .ok (x * (-1) ^ ((i + j) % 2))

/-- Method `adjugate`: `self.cofactor().transpose()`. -/
def adjugateE (m : Mat) : Except PyErr Mat :=
  match cofactorE m with
  | .error e => .error e
  | .ok cf => transposeE cf

/-- Method `inverse`: `det = self.determinant() if self.is_square else 0`;
returns `None` when `det == 0`, otherwise builds the matrix of minors and
returns `minors.adjugate() * (1/det)`. -/
def inverseE (m : Mat) : Except PyErr (Option Mat) :=
  match is_squareE m with
  | .error e => .error e
  | .ok sq =>
    match (if sq then determinant m else .ok 0) with
    | .error e => .error e
    | .ok det =>
      if det = 0 then .ok none
      else
        match sizeE m with
        | .error e => .error e
        | .ok (r, c) =>
          match fillNew r c (fun i j => minor m i j) with
          | .error e => .error e
          | .ok minors =>
            match adjugateE minors with
            | .error e => .error e
            | .ok adj =>
              match smulE adj (1 / det) with
              | .error e => .error e
              | .ok inv => .ok (some inv)

/-- The `while p > 1: new @= self; p -= 1` loop of `__pow__`: the count is the
remaining number of multiplications; a `None` accumulator (a failed inverse)
raises `TypeError` when multiplied. -/
def powLoop (self : Mat) : Option Mat → ℕ → Except PyErr (Option Mat)
  | acc, 0 => .ok acc
  | acc, count + 1 =>
    match acc with
    | none => .error .typeError
    | some m =>
      match matmulE m self with
      | .error e => .error e
      | .ok m' => powLoop self (some m') count

/-- Operator `**` (`__pow__`): rejects non-square bases unless `p` is `+1` or
`-1`, returns the identity for `p = 0`, otherwise starts from a copy (replaced
by its inverse for negative `p`) and multiplies by `self` another `|p| - 1`
times. -/
def powE (self : Mat) (p : ℤ) : Except PyErr (Option Mat) :=
  match is_squareE self with
  | .error e => .error e
  | .ok sq =>
    if ¬ sq = true ∧ ¬ (p = 1 ∨ p = -1) then .error (.valueError msgPow)
    else if p = 0 then .ok (some (identityM self.length))
    else
      match copyE self with
      | .error e => .error e
      | .ok cp =>
        if p < 0 then
          match inverseE cp with
          | .error e => .error e
          | .ok first => powLoop self first (p.natAbs - 1)
        else powLoop self (some cp) (p.natAbs - 1)

/-- In the source, property `is_invertible` returns
`not self.is_square or self.determinant == 0`, where `self.determinant` is the
bound method object itself, not a call: a Python method object never equals
`0`, so the right operand of `or` is constantly `False`. -/
def determinant_method_eq_zero : Bool := false

/-- Property `is_invertible` as written in the source. -/
def is_invertibleE (m : Mat) : Except PyErr Bool :=
  match is_squareE m with
  | .error e => .error e
  | .ok sq => .ok (!sq || determinant_method_eq_zero)

/-- `math.isclose` with its default tolerances (`rel_tol=1e-09`, `abs_tol=0.0`)
transcribed over ℚ. -/
def iscloseQ (a b : ℚ) : Bool :=
  decide (|a - b| ≤ max ((1 / 1000000000) * max |a| |b|) 0)

/-- The `all(...)` generator of `is_identity` over the positions produced by
`all_positions` (which iterates columns in the outer generator and rows in the
inner one), short-circuiting at the first position that is not close to the
Kronecker delta. -/
def identAll (m : Mat) : List (ℕ × ℕ) → Except PyErr Bool
  | [] => .ok true
  | p :: rest =>
    match getE m p.1 p.2 with
    | .error e => .error e
    | .ok x =>
      if iscloseQ x (if p.1 = p.2 then 1 else 0) then identAll m rest else .ok false

/-- Method `all_positions`: all `(r, c)` pairs, outer loop over columns. -/
def allPositions (rows cols : ℕ) : List (ℕ × ℕ) :=
  (List.range cols).foldr (fun c acc => ((List.range rows).map fun r => (r, c)) ++ acc) []

/-- Property `is_identity`: every entry approximately equals the Kronecker
delta; queries `self.columns` (raising on a matrix with no rows). -/
def is_identityE (m : Mat) : Except PyErr Bool :=
  match columnsE m with
  | .error e => .error e
  | .ok cols => identAll m (allPositions m.length cols)

/-- The scan `for c in range(self.columns): if self[r, c] != 0` of
`is_echelon`: the first column of row `r` holding a non-zero entry. -/
def firstNZ (m : Mat) (r : ℕ) : List ℕ → Option ℕ
  | [] => none
  | c :: rest => if get m r c ≠ 0 then some c else firstNZ m r rest

/-- The row loop of `is_echelon` over the row indices still to scan, carrying
the `zero_row` flag: a non-zero row fails if a zero row was seen before or the
entry directly below its leading column is non-zero; an all-zero row sets the
flag. -/
def echelonLoop (m : Mat) (cols : ℕ) : List ℕ → Bool → Bool
  | [], _ => true
  | r :: rest, zeroRow =>
    match firstNZ m r (List.range cols) with
    | none => echelonLoop m cols rest true
    | some c =>
      if zeroRow ∨ get m (r + 1) c ≠ 0 then false
      else echelonLoop m cols rest zeroRow

/-- Property `is_echelon`: scans rows `0 .. rows-2`; `self.columns` is queried
only inside the loop, so a matrix with at most one row returns `True`
immediately.  All element reads are at row index at most `rows-1` and column
index below `columns`, in range for matrices satisfying the row-length
invariant `Rect`, so the total accessor `get` is used. -/
def is_echelonB (m : Mat) : Bool :=
  echelonLoop m ((m.headD []).length) (List.range (m.length - 1)) false

/-- Python list indexing `lst[i]` with an `int` index: a negative index counts
from the end, and an index out of range (after that adjustment) raises
`IndexError`. -/
def getPyIdx (l : List α) (i : ℤ) : Except PyErr α :=
  if 0 ≤ (if i < 0 then i + l.length else i) then
    match l.get? (if i < 0 then i + l.length else i).toNat with
    | some x => .ok x
    | none => .error .indexError
  else .error .indexError

/-- `self[i, j]` with possibly negative `int` indices, as used by the slice
fill of `__getitem__`. -/
def getPy2 (m : Mat) (i j : ℤ) : Except PyErr ℚ :=
  match getPyIdx m i with
  | .error e => .error e
  | .ok row => getPyIdx row j

/-- Slice-endpoint normalisation for the row axis of `__getitem__`: an absent
start is 0, an absent stop is the dimension size, a negative value has the
dimension size added. -/
def normIdx (v : Option ℤ) (dim : ℕ) (dflt : ℤ) : ℤ :=
  match v with
  | none => dflt
  | some x => if x < 0 then x + dim else x

/-- Column-start normalisation of the slice path of `__getitem__`: the column
endpoints query `self.columns` only when needed (an absent start does not, a
negative value does), matching the statement order of the source. -/
def normJStart (m : Mat) (v : Option ℤ) : Except PyErr ℤ :=
  match v with
  | none => .ok 0
  | some x =>
    if x < 0 then
      match columnsE m with
      | .error e => .error e
      | .ok c => .ok (x + c)
    else .ok x

/-- Column-stop normalisation of the slice path: an absent stop and a negative
stop both query `self.columns`. -/
def normJStop (m : Mat) (v : Option ℤ) : Except PyErr ℤ :=
  match v with
  | none =>
    match columnsE m with
    | .error e => .error e
    | .ok c => .ok (c : ℤ)
  | some x =>
    if x < 0 then
      match columnsE m with
      | .error e => .error e
      | .ok c => .ok (x + c)
    else .ok x

/-- The slice path of `__getitem__` for `self[istart:istop, jstart:jstop]`
(continued from `normJStart` and `normJStop`): row endpoints are normalised
with `self.rows`; an extent with fewer than one row or one column returns
`Matrix([])`, the canonical empty matrix; otherwise a fresh matrix is filled
by indexing `self` from `(istart, jstart)`. -/
def getSliceE (m : Mat) (istart istop jstart jstop : Option ℤ) : Except PyErr Mat :=
  let is' := normIdx istart m.length 0
  let io' := normIdx istop m.length m.length
  match normJStart m jstart with
  | .error e => .error e
  | .ok js' =>
    match normJStop m jstop with
    | .error e => .error e
    | .ok jo' =>
      let rows := io' - is'
      let cols := jo' - js'
      if rows < 1 ∨ cols < 1 then .ok []
      else fillNew rows.toNat cols.toNat fun r c => getPy2 m (is' + r) (js' + c)

/-- Embedding of the matrix into Mathlib matrices over `Fin n`, for comparing
the recursive determinant with `Matrix.det`. -/
def toMatrix (m : Mat) (n : ℕ) : Matrix (Fin n) (Fin n) ℚ :=
  Matrix.of fun i j => get m (i : ℕ) (j : ℕ)

/-- Index renumbering after deleting index `t`: position `a` of the submatrix
comes from position `a` if `a < t` and from `a + 1` otherwise. -/
def delIdx (t a : ℕ) : ℕ :=
  if a < t then a else a + 1

/-- The value of `submatrix([t], [u])` on a rectangular `n × n` matrix. -/
def subMat (m : Mat) (n t u : ℕ) : Mat :=
  mkMat (n - 1) (n - 1) fun a b => get m (delIdx t a) (delIdx u b)

/-- Row `r` is entirely zero on the first `cols` columns (the zero-row test of
the echelon scan). -/
def ZeroRow (m : Mat) (cols r : ℕ) : Prop :=
  ∀ c < cols, get m r c = 0

/-- Column `c` is the leading (first) non-zero column of row `r`. -/
def LeadCol (m : Mat) (cols r c : ℕ) : Prop :=
  c < cols ∧ get m r c ≠ 0 ∧ ∀ c' < c, get m r c' = 0

/-- Decidable equality of `Except` results, for evaluating the embedding on
concrete inputs. -/
instance {ε α : Type} [DecidableEq ε] [DecidableEq α] : DecidableEq (Except ε α)
  | .error e, .error f => decidable_of_iff (e = f) (by simp)
  | .error _, .ok _ => .isFalse (by simp)
  | .ok _, .error _ => .isFalse (by simp)
  | .ok x, .ok y => decidable_of_iff (x = y) (by simp)

/-- The demo matrix `M2` of the source, used as a concrete invertible 3×3. -/
def M2mat : Mat := [[3, 0, 2], [2, 0, -2], [0, 1, 1]]

/-- The demo matrix `M3` of the source, a 3×5 used for the slice scenario. -/
def M3mat : Mat := [[4, 2, 3, 1, 4], [0, 2, 1, 4, 0], [0, 0, 0, 3, 0]]

/-- The inverse of `M2mat`, computed by the source algorithm. -/
def M2inv : Mat := [[1/5, 1/5, 0], [-1/5, 3/10, 1], [1/5, -3/10, 0]]

theorem seqE_ok {α : Type} (f : ℕ → Except PyErr α) (g : ℕ → α) :
    ∀ l : List ℕ, (∀ i ∈ l, f i = .ok (g i)) → seqE f l = .ok (l.map g)
  | [], _ => rfl
  | i :: rest, h => by
    have h1 : f i = .ok (g i) := h i (List.mem_cons_self i rest)
    have h2 := seqE_ok f g rest fun j hj => h j (List.mem_cons_of_mem i hj)
    simp [seqE, h1, h2]

theorem fillNew_ok {r c : ℕ} {f : ℕ → ℕ → Except PyErr ℚ} (g : ℕ → ℕ → ℚ)
    (h : ∀ i < r, ∀ j < c, f i j = .ok (g i j)) :
    fillNew r c f = .ok (mkMat r c g) := by
  unfold fillNew mkMat
  apply seqE_ok
  intro i hi
  apply seqE_ok
  intro j hj
  exact h i (List.mem_range.mp hi) j (List.mem_range.mp hj)

@[simp] theorem mkMat_length {r c : ℕ} {f : ℕ → ℕ → ℚ} : (mkMat r c f).length = r := by
  simp [mkMat]

theorem mkMat_getD {r c : ℕ} {f : ℕ → ℕ → ℚ} {i : ℕ} (hi : i < r) :
    (mkMat r c f).getD i [] = (List.range c).map (f i) := by
  rw [List.getD_eq_getElem?_getD]
  simp [mkMat, List.getElem?_map, List.getElem?_range hi]

theorem mkMat_headD {r c : ℕ} {f : ℕ → ℕ → ℚ} (hr : 0 < r) :
    (mkMat r c f).headD [] = (List.range c).map (f 0) := by
  rcases r with _ | r
  · omega
  · simp [mkMat, List.range_succ_eq_map]

theorem get_mkMat {r c : ℕ} {f : ℕ → ℕ → ℚ} {i j : ℕ} (hi : i < r) (hj : j < c) :
    get (mkMat r c f) i j = f i j := by
  rw [get, mkMat_getD hi, List.getD_eq_getElem?_getD]
  simp [List.getElem?_map, List.getElem?_range hj]

theorem Rect_mkMat {r c : ℕ} {f : ℕ → ℕ → ℚ} : Rect (mkMat r c f) := by
  intro row hrow
  simp only [mkMat, List.mem_map, List.mem_range] at hrow
  obtain ⟨i, hi, rfl⟩ := hrow
  rcases Nat.eq_zero_or_pos r with hr | hr
  · omega
  · rw [mkMat_headD hr]
    simp

theorem columnsE_mkMat {r c : ℕ} {f : ℕ → ℕ → ℚ} (hr : 0 < r) :
    columnsE (mkMat r c f) = .ok c := by
  rcases r with _ | r
  · omega
  · simp [mkMat, columnsE, List.range_succ_eq_map]

theorem columnsE_of_ne_nil {m : Mat} (hm : m ≠ []) :
    columnsE m = .ok (m.headD []).length := by
  cases m with
  | nil => exact absurd rfl hm
  | cons row rest => rfl

theorem Rect_row_length {m : Mat} (hrect : Rect m) {i : ℕ} (hi : i < m.length) :
    (m.getD i []).length = (m.headD []).length := by
  rw [List.getD_eq_getElem?_getD, List.getElem?_eq_getElem hi]
  exact hrect _ (List.getElem_mem hi)

theorem get?_eq_some_getD {α : Type} {l : List α} {j : ℕ} (d : α) (h : j < l.length) :
    l.get? j = some (l.getD j d) := by
  rw [List.get?_eq_getElem?, List.getElem?_eq_getElem h, List.getD_eq_getElem?_getD,
    List.getElem?_eq_getElem h]
  rfl

theorem getE_ok {m : Mat} (hrect : Rect m) {i j : ℕ} (hi : i < m.length)
    (hj : j < (m.headD []).length) : getE m i j = .ok (get m i j) := by
  have hlen : j < (m.getD i []).length := by rw [Rect_row_length hrect hi]; exact hj
  simp only [getE, get?_eq_some_getD [] hi, get?_eq_some_getD 0 hlen, get]

theorem mkMat_ext {r c : ℕ} {f g : ℕ → ℕ → ℚ} (h : ∀ i < r, ∀ j < c, f i j = g i j) :
    mkMat r c f = mkMat r c g := by
  unfold mkMat
  refine List.map_congr_left fun i hi => ?_
  refine List.map_congr_left fun j hj => ?_
  exact h i (List.mem_range.mp hi) j (List.mem_range.mp hj)

theorem detF_succ (fuel : ℕ) (m : Mat) : detF (fuel + 1) m = detStep (detF fuel) m := rfl

theorem filter_del : ∀ (n t : ℕ), t ≤ n →
    (List.range (n + 1)).filter (fun x => decide (¬ x ∈ ([t] : List ℕ))) =
      (List.range n).map (delIdx t)
  | n, 0, _ => by
    rw [List.range_succ_eq_map]
    rw [List.filter_cons, if_neg (by decide)]
    rw [List.filter_map]
    have hall : ((List.range n).filter ((fun x => decide (¬ x ∈ ([0] : List ℕ))) ∘ (· + 1))) =
        List.range n := by
      refine List.filter_eq_self.mpr fun x _ => ?_
      simp [Function.comp]
    rw [hall]
    refine List.map_congr_left fun x _ => ?_
    simp [delIdx]
  | n, t + 1, h => by
    obtain ⟨m, rfl⟩ : ∃ m, n = m + 1 := ⟨n - 1, by omega⟩
    rw [List.range_succ_eq_map]
    rw [List.filter_cons, if_pos (by simp)]
    rw [List.filter_map]
    have hpred : ((List.range (m + 1)).filter
        ((fun x => decide (¬ x ∈ ([t + 1] : List ℕ))) ∘ (· + 1))) =
        ((List.range (m + 1)).filter (fun x => decide (¬ x ∈ ([t] : List ℕ)))) := by
      refine List.filter_congr fun x _ => ?_
      simp [Function.comp]
    rw [hpred, filter_del m t (by omega), List.range_succ_eq_map m]
    simp only [List.map_cons, List.map_map]
    congr 1
    · show (0 : ℕ) = delIdx (t + 1) 0
      simp [delIdx]
    · refine List.map_congr_left fun x _ => ?_
      simp only [Function.comp_apply]
      unfold delIdx
      split_ifs <;> omega
  termination_by n t => n

theorem submatrixE_ok {m : Mat} {n : ℕ} (hrect : Rect m) (hlen : m.length = n)
    (hcols : (m.headD []).length = n) {t u : ℕ} (ht : t < n) (hu : u < n) :
    submatrixE m [t] [u] = .ok (subMat m n t u) := by
  have hne : m ≠ [] := by
    intro h
    rw [h] at hlen
    simp at hlen
    omega
  have hn1 : n - 1 + 1 = n := by omega
  have hdel : ∀ s a : ℕ, s < n → a < n - 1 → delIdx s a < n := by
    intro s a hs ha
    unfold delIdx
    split <;> omega
  have hrows : (List.range m.length).filter (fun x => decide (¬ x ∈ ([t] : List ℕ))) =
      (List.range (n - 1)).map (delIdx t) := by
    have h := filter_del (n - 1) t (by omega)
    rw [hn1] at h
    rw [hlen]
    exact h
  have hcolsF : (List.range n).filter (fun x => decide (¬ x ∈ ([u] : List ℕ))) =
      (List.range (n - 1)).map (delIdx u) := by
    have h := filter_del (n - 1) u (by omega)
    rw [hn1] at h
    exact h
  unfold submatrixE
  rw [hrows]
  have hstep : ∀ i ∈ (List.range (n - 1)).map (delIdx t),
      (match columnsE m with
        | .error e => .error e
        | .ok cols => seqE (getE m i) ((List.range cols).filter fun j => decide (¬ j ∈ ([u] : List ℕ)))) =
      Except.ok (((List.range (n - 1)).map (delIdx u)).map (fun j => get m i j)) := by
    intro i hi
    obtain ⟨a, ha, rfl⟩ := List.mem_map.mp hi
    have ha' := List.mem_range.mp ha
    have hcE : columnsE m = .ok n := by rw [columnsE_of_ne_nil hne, hcols]
    simp only [hcE, hcolsF]
    refine seqE_ok _ _ _ fun j hj => ?_
    obtain ⟨b, hb, rfl⟩ := List.mem_map.mp hj
    have hb' := List.mem_range.mp hb
    exact getE_ok hrect (by rw [hlen]; exact hdel t a ht ha') (by rw [hcols]; exact hdel u b hu hb')
  rw [seqE_ok _ _ _ hstep]
  unfold subMat mkMat
  simp [List.map_map, Function.comp]

theorem detSum_okL (rec : Mat → Except PyErr ℚ) (m : Mat) (x d : ℕ → ℚ) :
    ∀ (l : List ℕ) (acc : ℚ),
      (∀ c ∈ l, getE m 0 c = .ok (x c)) →
      (∀ c ∈ l, ∃ sub, submatrixE m [0] [c] = .ok sub ∧ rec sub = .ok (d c)) →
      detSum rec m l acc = .ok (acc + (l.map fun c => x c * d c * (-1) ^ (c % 2)).sum)
  | [], acc, _, _ => by simp [detSum]
  | c :: rest, acc, hx, hd => by
    obtain ⟨sub, hsub, hrec⟩ := hd c (List.mem_cons_self c rest)
    have h1 := hx c (List.mem_cons_self c rest)
    have h2 := detSum_okL rec m x d rest (acc + x c * d c * (-1) ^ (c % 2))
      (fun j hj => hx j (List.mem_cons_of_mem c hj))
      (fun j hj => hd j (List.mem_cons_of_mem c hj))
    simp only [detSum, h1, hsub, hrec, h2, List.map_cons, List.sum_cons]
    rw [add_assoc]

theorem listSum_range (h : ℕ → ℚ) : ∀ n, ((List.range n).map h).sum = ∑ i in Finset.range n, h i
  | 0 => by simp
  | n + 1 => by
    rw [List.range_succ, List.map_append, List.sum_append, listSum_range h n,
      Finset.sum_range_succ]
    simp

theorem val_succAbove {n : ℕ} (p : Fin (n + 1)) (i : Fin n) :
    ((p.succAbove i : Fin (n + 1)) : ℕ) = delIdx (p : ℕ) (i : ℕ) := by
  unfold Fin.succAbove delIdx
  split
  next h =>
    rw [if_pos (by simpa [Fin.lt_def] using h)]
    simp
  next h =>
    rw [if_neg (by simpa [Fin.lt_def] using h)]
    simp

theorem toMatrix_subMat {m : Mat} {k : ℕ} (t u : Fin (k + 1)) :
    toMatrix (subMat m (k + 1) (t : ℕ) (u : ℕ)) k =
      (toMatrix m (k + 1)).submatrix t.succAbove u.succAbove := by
  funext i j
  show get (subMat m (k + 1) (t : ℕ) (u : ℕ)) (i : ℕ) (j : ℕ) =
    get m ((t.succAbove i : Fin (k + 1)) : ℕ) ((u.succAbove j : Fin (k + 1)) : ℕ)
  unfold subMat
  rw [get_mkMat (by simpa using i.isLt) (by simpa using j.isLt), val_succAbove, val_succAbove]

theorem detF_to_det : ∀ (n : ℕ), 2 ≤ n → ∀ m : Mat, m.length = n → Rect m →
    (m.headD []).length = n → detF n m = .ok ((toMatrix m n).det) := by
  intro n hn
  induction n, hn using Nat.le_induction with
  | base =>
    intro m hlen hrect hcols
    have hne : m ≠ [] := by
      intro h
      rw [h] at hlen
      simp at hlen
    have hc : columnsE m = .ok 2 := by rw [columnsE_of_ne_nil hne, hcols]
    have hg00 := getE_ok hrect (i := 0) (j := 0) (by omega) (by omega)
    have hg11 := getE_ok hrect (i := 1) (j := 1) (by omega) (by omega)
    have hg01 := getE_ok hrect (i := 0) (j := 1) (by omega) (by omega)
    have hg10 := getE_ok hrect (i := 1) (j := 0) (by omega) (by omega)
    rw [show (2 : ℕ) = 1 + 1 from rfl, detF_succ]
    unfold detStep
    simp only [hc]
    rw [hlen, if_pos rfl, if_pos (by simp)]
    simp only [hg00, hg11, hg01, hg10]
    rw [Matrix.det_fin_two]
    simp [toMatrix]
  | succ k hk IH =>
    intro m hlen hrect hcols
    have hne : m ≠ [] := by
      intro h
      rw [h] at hlen
      simp at hlen
    have hc : columnsE m = .ok (k + 1) := by rw [columnsE_of_ne_nil hne, hcols]
    rw [detF_succ]
    unfold detStep
    simp only [hc]
    rw [hlen, if_pos rfl, if_neg (by omega)]
    have hsum := detSum_okL (detF k) m (fun c => get m 0 c)
      (fun c => (toMatrix (subMat m (k + 1) 0 c) k).det) (List.range (k + 1)) 0
      (fun c hc' => getE_ok hrect (by omega) (by rw [hcols]; exact List.mem_range.mp hc'))
      (fun c hc' => by
        have hcb := List.mem_range.mp hc'
        refine ⟨subMat m (k + 1) 0 c, submatrixE_ok hrect hlen hcols (by omega) hcb, ?_⟩
        have hlen' : (subMat m (k + 1) 0 c).length = k := by simp [subMat]
        have hcols' : ((subMat m (k + 1) 0 c).headD []).length = k := by
          unfold subMat
          rw [mkMat_headD (by omega)]
          simp
        exact IH _ hlen' Rect_mkMat hcols')
    rw [hsum, zero_add]
    congr 1
    rw [listSum_range, ← Fin.sum_univ_eq_sum_range, Matrix.det_succ_row_zero (toMatrix m (k + 1))]
    refine Finset.sum_congr rfl fun j _ => ?_
    have h1 : ((-1 : ℚ)) ^ ((j : ℕ) % 2) = (-1) ^ (j : ℕ) :=
      (neg_one_pow_eq_pow_mod_two _).symm
    have h2 : toMatrix m (k + 1) 0 j = get m 0 (j : ℕ) := by
      show get m ((0 : Fin (k + 1)) : ℕ) (j : ℕ) = get m 0 (j : ℕ)
      norm_num
    have h3 : (toMatrix (subMat m (k + 1) 0 (j : ℕ)) k).det =
        ((toMatrix m (k + 1)).submatrix Fin.succ j.succAbove).det := by
      have := toMatrix_subMat (m := m) (0 : Fin (k + 1)) j
      rw [Fin.succAbove_zero] at this
      rw [show ((0 : Fin (k + 1)) : ℕ) = 0 from rfl] at this
      rw [this]
    simp only [h1, h2, h3]
    ring

theorem determinant_ok {m : Mat} {n : ℕ} (hn : 2 ≤ n) (hlen : m.length = n) (hrect : Rect m)
    (hcols : (m.headD []).length = n) : determinant m = .ok ((toMatrix m n).det) := by
  rw [determinant, hlen]
  exact detF_to_det n hn m hlen hrect hcols

theorem minor_ok {m : Mat} {n : ℕ} (hn : 3 ≤ n) (hlen : m.length = n) (hrect : Rect m)
    (hcols : (m.headD []).length = n) {t u : ℕ} (ht : t < n) (hu : u < n) :
    minor m t u = .ok ((toMatrix (subMat m n t u) (n - 1)).det) := by
  unfold minor
  rw [submatrixE_ok hrect hlen hcols ht hu]
  exact determinant_ok (by omega) (by simp [subMat])
    Rect_mkMat (by unfold subMat; rw [mkMat_headD (by omega)]; simp)

theorem is_squareE_of_square {m : Mat} {n : ℕ} (hlen : m.length = n) (hne : m ≠ [])
    (hcols : (m.headD []).length = n) : is_squareE m = .ok true := by
  unfold is_squareE
  rw [columnsE_of_ne_nil hne, hcols, hlen]
  simp

theorem sizeE_mkMat {r c : ℕ} {f : ℕ → ℕ → ℚ} (hr : 0 < r) :
    sizeE (mkMat r c f) = .ok (r, c) := by
  unfold sizeE
  rw [columnsE_mkMat hr]
  simp

theorem dotE_ok (a b : Mat) (x y : ℕ → ℚ) (r c : ℕ) :
    ∀ (l : List ℕ) (acc : ℚ),
      (∀ i ∈ l, getE a r i = .ok (x i)) →
      (∀ i ∈ l, getE b i c = .ok (y i)) →
      dotE a b r c l acc = .ok (acc + (l.map fun i => x i * y i).sum)
  | [], acc, _, _ => by simp [dotE]
  | i :: rest, acc, hx, hy => by
    have h1 := hx i (List.mem_cons_self i rest)
    have h2 := hy i (List.mem_cons_self i rest)
    have h3 := dotE_ok a b x y r c rest (acc + x i * y i)
      (fun j hj => hx j (List.mem_cons_of_mem i hj))
      (fun j hj => hy j (List.mem_cons_of_mem i hj))
    simp only [dotE, h1, h2, h3, List.map_cons, List.sum_cons]
    rw [add_assoc]

theorem matmulE_ok {a b : Mat} {n : ℕ} (hn : 0 < n) (ha : a.length = n) (harect : Rect a)
    (hacols : (a.headD []).length = n) (hb : b.length = n) (hbrect : Rect b)
    (hbcols : (b.headD []).length = n) :
    matmulE a b = .ok (mkMat n n fun r c => ((List.range n).map fun i => get a r i * get b i c).sum) := by
  have hane : a ≠ [] := by intro h; rw [h] at ha; simp at ha; omega
  have hbne : b ≠ [] := by intro h; rw [h] at hb; simp at hb; omega
  unfold matmulE
  have hcE : columnsE a = .ok n := by rw [columnsE_of_ne_nil hane, hacols]
  have hcE' : columnsE b = .ok n := by rw [columnsE_of_ne_nil hbne, hbcols]
  simp only [hcE, hb]
  rw [if_neg (by omega)]
  simp only [hcE', ha]
  refine fillNew_ok _ fun r hr c hc => ?_
  have hdot := dotE_ok a b (fun i => get a r i) (fun i => get b i c) r c (List.range n) 0
    (fun i hi => getE_ok harect (by omega) (by rw [hacols]; exact List.mem_range.mp hi))
    (fun i hi => getE_ok hbrect (by rw [hb]; exact List.mem_range.mp hi)
      (by rw [hbcols]; exact hc))
  rw [hdot, zero_add]

theorem iscloseQ_self (a : ℚ) : iscloseQ a a = true := by
  unfold iscloseQ
  rw [decide_eq_true_eq, sub_self, abs_zero]
  exact le_max_right _ 0

theorem identAll_true {m : Mat} :
    ∀ l : List (ℕ × ℕ),
      (∀ p ∈ l, ∃ v, getE m p.1 p.2 = .ok v ∧ iscloseQ v (if p.1 = p.2 then 1 else 0) = true) →
      identAll m l = .ok true
  | [], _ => rfl
  | p :: rest, h => by
    obtain ⟨v, hv, hcl⟩ := h p (List.mem_cons_self p rest)
    have h2 := identAll_true rest fun q hq => h q (List.mem_cons_of_mem p hq)
    simp only [identAll, hv, hcl, if_true, h2]

theorem mem_foldr_positions {rows : ℕ} {p : ℕ × ℕ} :
    ∀ l : List ℕ,
      (p ∈ l.foldr (fun c acc => ((List.range rows).map fun r => (r, c)) ++ acc) [] ↔
        ∃ c ∈ l, p.1 < rows ∧ p.2 = c)
  | [] => by simp
  | c :: rest => by
    simp only [List.foldr_cons, List.mem_append, mem_foldr_positions rest, List.mem_cons]
    constructor
    · rintro (hm | ⟨c', hc', h1, h2⟩)
      · obtain ⟨r, hr, hrc⟩ := List.mem_map.mp hm
        refine ⟨c, Or.inl rfl, ?_, ?_⟩
        · rw [← hrc]
          exact List.mem_range.mp hr
        · rw [← hrc]
      · exact ⟨c', Or.inr hc', h1, h2⟩
    · rintro ⟨c', rfl | hc', h1, h2⟩
      · left
        refine List.mem_map.mpr ⟨p.1, List.mem_range.mpr h1, ?_⟩
        rw [← h2]
      · right
        exact ⟨c', hc', h1, h2⟩

theorem mem_allPositions {rows cols : ℕ} {p : ℕ × ℕ} :
    p ∈ allPositions rows cols ↔ p.1 < rows ∧ p.2 < cols := by
  unfold allPositions
  rw [mem_foldr_positions]
  constructor
  · rintro ⟨c, hc, h1, h2⟩
    exact ⟨h1, h2 ▸ List.mem_range.mp hc⟩
  · rintro ⟨h1, h2⟩
    exact ⟨p.2, List.mem_range.mpr h2, h1, rfl⟩

theorem is_identityE_mk {n : ℕ} (hn : 0 < n) (g : ℕ → ℕ → ℚ)
    (hg : ∀ i < n, ∀ j < n, g i j = if i = j then 1 else 0) :
    is_identityE (mkMat n n g) = .ok true := by
  unfold is_identityE
  rw [columnsE_mkMat hn]
  simp only [mkMat_length]
  refine identAll_true _ fun p hp => ?_
  obtain ⟨h1, h2⟩ := mem_allPositions.mp hp
  refine ⟨g p.1 p.2, ?_, ?_⟩
  · rw [getE_ok Rect_mkMat (by simpa using h1) (by rw [mkMat_headD hn]; simpa using h2),
      get_mkMat h1 h2]
  · rw [hg p.1 h1 p.2 h2]
    exact iscloseQ_self _

theorem sizeE_of_square {m : Mat} {n : ℕ} (hlen : m.length = n) (hne : m ≠ [])
    (hcols : (m.headD []).length = n) : sizeE m = .ok (n, n) := by
  unfold sizeE
  rw [columnsE_of_ne_nil hne, hcols, hlen]

theorem cofactorE_mk {r c : ℕ} (hr : 0 < r) (g : ℕ → ℕ → ℚ) :
    cofactorE (mkMat r c g) = .ok (mkMat r c fun i j => g i j * (-1) ^ ((i + j) % 2)) := by
  unfold cofactorE
  simp only [sizeE_mkMat hr]
  refine fillNew_ok _ fun i hi j hj => ?_
  have hget : getE (mkMat r c g) i j = .ok (get (mkMat r c g) i j) :=
    getE_ok (m := mkMat r c g) Rect_mkMat (by simpa using hi)
      (by rw [mkMat_headD hr]; simpa using hj)
  simp only [hget, get_mkMat hi hj]

theorem transposeE_mk {r c : ℕ} (hr : 0 < r) (g : ℕ → ℕ → ℚ) :
    transposeE (mkMat r c g) = .ok (mkMat c r fun i j => g j i) := by
  unfold transposeE
  simp only [columnsE_mkMat hr, mkMat_length]
  refine fillNew_ok _ fun i hi j hj => ?_
  have hget : getE (mkMat r c g) j i = .ok (get (mkMat r c g) j i) :=
    getE_ok (m := mkMat r c g) Rect_mkMat (by simpa using hj)
      (by rw [mkMat_headD hr]; simpa using hi)
  simp only [hget, get_mkMat hj hi]

theorem copyE_mk {r c : ℕ} (hr : 0 < r) (g : ℕ → ℕ → ℚ) :
    copyE (mkMat r c g) = .ok (mkMat r c g) := by
  unfold copyE
  simp only [sizeE_mkMat hr]
  refine fillNew_ok _ fun i hi j hj => ?_
  have hget : getE (mkMat r c g) i j = .ok (get (mkMat r c g) i j) :=
    getE_ok (m := mkMat r c g) Rect_mkMat (by simpa using hi)
      (by rw [mkMat_headD hr]; simpa using hj)
  simp only [hget, get_mkMat hi hj]

theorem imulE_mk {r c : ℕ} (hr : 0 < r) (g : ℕ → ℕ → ℚ) (k : ℚ) :
    imulE (mkMat r c g) k = .ok (mkMat r c fun i j => g i j * k) := by
  unfold imulE
  have hh : ((mkMat r c g).headD []).length = c := by rw [mkMat_headD hr]; simp
  simp only [mkMat_length, hh]
  refine fillNew_ok _ fun i hi j hj => ?_
  have hget : getE (mkMat r c g) i j = .ok (get (mkMat r c g) i j) :=
    getE_ok (m := mkMat r c g) Rect_mkMat (by simpa using hi)
      (by rw [mkMat_headD hr]; simpa using hj)
  simp only [hget, get_mkMat hi hj]

theorem smulE_mk {r c : ℕ} (hr : 0 < r) (g : ℕ → ℕ → ℚ) (k : ℚ) :
    smulE (mkMat r c g) k = .ok (mkMat r c fun i j => g i j * k) := by
  unfold smulE
  simp only [copyE_mk hr, imulE_mk hr]

theorem inverseE_ok {m : Mat} {n : ℕ} (hn : 3 ≤ n) (hlen : m.length = n) (hrect : Rect m)
    (hcols : (m.headD []).length = n) (hd : (toMatrix m n).det ≠ 0) :
    inverseE m = .ok (some (mkMat n n fun r c =>
      (toMatrix (subMat m n c r) (n - 1)).det * (-1) ^ ((c + r) % 2) *
        (1 / (toMatrix m n).det))) := by
  have hne : m ≠ [] := by intro h; rw [h] at hlen; simp at hlen; omega
  have hn0 : 0 < n := by omega
  have hsq := is_squareE_of_square hlen hne hcols
  have hdet := determinant_ok (n := n) (by omega) hlen hrect hcols
  have hsz := sizeE_of_square hlen hne hcols
  have hmin : fillNew n n (fun i j => minor m i j) =
      .ok (mkMat n n fun i j => (toMatrix (subMat m n i j) (n - 1)).det) :=
    fillNew_ok _ fun i hi j hj => minor_ok hn hlen hrect hcols hi hj
  have hadj : adjugateE (mkMat n n fun i j => (toMatrix (subMat m n i j) (n - 1)).det) =
      .ok (mkMat n n fun i j =>
        (toMatrix (subMat m n j i) (n - 1)).det * (-1) ^ ((j + i) % 2)) := by
    unfold adjugateE
    simp only [cofactorE_mk hn0, transposeE_mk hn0]
  unfold inverseE
  simp only [hsq, if_true, hdet, if_neg hd, hsz, hmin, hadj, smulE_mk hn0]

theorem inv_entry {m : Mat} {n : ℕ} (hn : 3 ≤ n) (hd : (toMatrix m n).det ≠ 0)
    {r c : ℕ} (hr : r < n) (hc : c < n) :
    ((List.range n).map fun i => get m r i *
      ((toMatrix (subMat m n c i) (n - 1)).det * (-1) ^ ((c + i) % 2) *
        (1 / (toMatrix m n).det))).sum = if r = c then 1 else 0 := by
  obtain ⟨k, rfl⟩ : ∃ k, n = k + 1 := ⟨n - 1, by omega⟩
  have hk : k + 1 - 1 = k := rfl
  set A := toMatrix m (k + 1) with hA
  set rF : Fin (k + 1) := ⟨r, hr⟩ with hrF
  set cF : Fin (k + 1) := ⟨c, hc⟩ with hcF
  set B := A.updateRow cF (A rF) with hB
  rw [listSum_range, ← Fin.sum_univ_eq_sum_range]
  have hterm : ∀ i : Fin (k + 1),
      get m r (i : ℕ) * ((toMatrix (subMat m (k + 1) c (i : ℕ)) k).det *
        (-1) ^ ((c + (i : ℕ)) % 2) * (1 / A.det)) =
      ((-1) ^ ((cF : ℕ) + (i : ℕ)) * B cF i *
        ((B.submatrix cF.succAbove i.succAbove).det)) * (1 / A.det) := by
    intro i
    have e1 : toMatrix (subMat m (k + 1) c (i : ℕ)) k = A.submatrix cF.succAbove i.succAbove := by
      have h := toMatrix_subMat (m := m) cF i
      rw [show ((cF : ℕ)) = c from rfl] at h
      rw [h, hA]
    have e2 : B.submatrix cF.succAbove i.succAbove = A.submatrix cF.succAbove i.succAbove := by
      funext a b
      rw [hB]
      simp only [Matrix.submatrix_apply]
      rw [Matrix.updateRow_ne (Fin.succAbove_ne cF a)]
    have e3 : B cF i = A rF i := by rw [hB, Matrix.updateRow_self]
    have e4 : get m r (i : ℕ) = A rF i := rfl
    have e5 : ((-1 : ℚ)) ^ ((c + (i : ℕ)) % 2) = (-1) ^ ((cF : ℕ) + (i : ℕ)) := by
      rw [show ((cF : ℕ)) = c from rfl]
      exact (neg_one_pow_eq_pow_mod_two _).symm
    rw [e1, e2, e3, e4, e5]
    ring
  refine Eq.trans (Finset.sum_congr rfl fun i _ => hterm i) ?_
  rw [← Finset.sum_mul, ← Matrix.det_succ_row B cF]
  by_cases hrc : r = c
  · have hF : rF = cF := Fin.ext hrc
    rw [hB, ← hF, Matrix.updateRow_eq_self, if_pos hrc]
    field_simp
  · have hne : rF ≠ cF := fun h => hrc (congrArg Fin.val h)
    have hrow : B rF = B cF := by
      rw [hB, Matrix.updateRow_self, Matrix.updateRow_ne hne]
    rw [Matrix.det_zero_of_row_eq hne hrow, zero_mul, if_neg hrc]

theorem inverse_product_identity {m : Mat} {n : ℕ} (hn : 3 ≤ n) (hlen : m.length = n)
    (hrect : Rect m) (hcols : (m.headD []).length = n) (hd : (toMatrix m n).det ≠ 0) :
    ∃ inv res, inverseE m = .ok (some inv) ∧ matmulE m inv = .ok res ∧
      is_identityE res = .ok true := by
  have hn0 : 0 < n := by omega
  refine ⟨_, _, inverseE_ok hn hlen hrect hcols hd,
    matmulE_ok hn0 hlen hrect hcols (by simp) Rect_mkMat
      (by rw [mkMat_headD hn0]; simp), ?_⟩
  refine is_identityE_mk hn0 _ fun r hr c hc => ?_
  have hmap : ((List.range n).map fun i => get m r i *
      get (mkMat n n fun a b => (toMatrix (subMat m n b a) (n - 1)).det *
        (-1) ^ ((b + a) % 2) * (1 / (toMatrix m n).det)) i c) =
      ((List.range n).map fun i => get m r i *
        ((toMatrix (subMat m n c i) (n - 1)).det * (-1) ^ ((c + i) % 2) *
          (1 / (toMatrix m n).det))) := by
    refine List.map_congr_left fun i hi => ?_
    rw [get_mkMat (List.mem_range.mp hi) hc]
  rw [hmap, inv_entry hn hd hr hc]

/-- C1: the claim states `is_invertible` is true exactly for square matrices
with non-zero determinant.  The source computes
`not self.is_square or self.determinant == 0` where `self.determinant` is an
uncalled method object, so the predicate degenerates to `not is_square`: a
square matrix with determinant 6 reports `False` and a non-square matrix
reports `True`, both opposite to the claim. -/
theorem C1_is_invertible_inverted :
    (is_squareE [[(2:ℚ), 0], [0, 3]] = .ok true ∧
      determinant [[(2:ℚ), 0], [0, 3]] = .ok 6 ∧
      is_invertibleE [[(2:ℚ), 0], [0, 3]] = .ok false) ∧
    (is_squareE [[(1:ℚ), 2]] = .ok false ∧ is_invertibleE [[(1:ℚ), 2]] = .ok true) := by
  refine ⟨⟨rfl, ?_, rfl⟩, rfl, rfl⟩
  have h : determinant [[(2:ℚ), 0], [0, 3]] = .ok (2 * 3 - 0 * 0) := rfl
  rw [h]
  norm_num

/-- C4: the constructor turns an empty outer sequence or an empty first row
into the canonical empty matrix and `rows` is 0 on it, but the `columns` query
`len(self._list[0])` raises `IndexError` on that matrix instead of returning 0
as the claim states. -/
theorem C4_empty_matrix_columns_raises :
    mkMatrix ([] : List (List ℚ)) = .ok [] ∧ mkMatrix [([] : List ℚ)] = .ok [] ∧
    rowsOf ([] : Mat) = 0 ∧ columnsE ([] : Mat) = .error .indexError :=
  ⟨rfl, rfl, rfl, rfl⟩

/-- C10: a 1×1 matrix is square, yet its determinant takes the general
expansion branch, recurses through `minor(0, 0)` to the matrix with no rows,
and the `columns` query of that empty matrix raises `IndexError` (third
conjunct: the determinant of the empty matrix is exactly that failing query). -/
theorem C10_det_one_by_one_index_error (a : ℚ) :
    is_squareE [[a]] = .ok true ∧ determinant [[a]] = .error .indexError ∧
    determinant ([] : Mat) = .error .indexError ∧
    columnsE ([] : Mat) = .error .indexError :=
  ⟨rfl, rfl, rfl, rfl⟩

/-- C2 counterexample: the claim covers every square matrix of size at least 2
with non-zero determinant, but on the 2×2 identity (determinant 1) `inverse()`
raises `IndexError` instead of returning a matrix: each entry of its minors
matrix is a 1×1 determinant, which fails as in C10. -/
theorem C2_counter_two_by_two :
    determinant [[(1:ℚ), 0], [0, 1]] = .ok 1 ∧ (1:ℚ) ≠ 0 ∧
    inverseE [[(1:ℚ), 0], [0, 1]] = .error .indexError := by
  refine ⟨?_, by norm_num, ?_⟩
  · have h : determinant [[(1:ℚ), 0], [0, 1]] = .ok (1 * 1 - 0 * 0) := rfl
    rw [h]
    norm_num
  · norm_num [inverseE, is_squareE, columnsE, determinant, detF, detStep, detSum, sizeE,
      fillNew, seqE, minor, submatrixE, getE, List.range_succ]

/-- C5 counterexample: the claim says `inverse()` returns the `None` sentinel
or a matrix and never raises, but on the square 1×1 matrix `[[5]]` the
determinant call raises `IndexError`, which propagates out of `inverse()`. -/
theorem C5_counter_inverse_raises :
    is_squareE [[(5:ℚ)]] = .ok true ∧ inverseE [[(5:ℚ)]] = .error .indexError :=
  ⟨rfl, rfl⟩

/-- C7 counterexample: in `[[0,0],[1,0]]` the all-zero row 0 is followed by a
row containing a non-zero entry, so the claim says `is_echelon` is false; but
the scan only visits rows `0 .. rows-2`, never re-examines the last row after
setting the zero-row flag on row 0, and returns `True`. -/
theorem C7_counter_zero_row_last :
    is_echelonB [[(0:ℚ), 0], [1, 0]] = true ∧
    (∀ c < 2, get [[(0:ℚ), 0], [1, 0]] 0 c = 0) ∧
    get [[(0:ℚ), 0], [1, 0]] 1 0 ≠ 0 := by
  decide

/-- C9 counterexample: the claim quantifies over every pair of matrices and
says in-place addition fails with the `DimensionMismatch` error iff the shapes
differ; for `[[1]] += []` the shapes differ (1 row versus 0 rows) but the size
query of the empty right operand raises `IndexError` instead, before any
comparison (the left operand is left unchanged). -/
theorem C9_counter_empty_operand :
    iaddE [[(1:ℚ)]] [] = ([[(1:ℚ)]], some .indexError) ∧
    rowsOf [[(1:ℚ)]] ≠ rowsOf ([] : Mat) ∧
    PyErr.indexError ≠ PyErr.valueError msgDim := by
  refine ⟨rfl, by decide, by simp [msgDim]⟩

/-- C3: the claim states `A ** p` for negative `p` equals `inverse(A)` raised
to `|p|` (for example `A ** -2 = inverse(A) @ inverse(A)`).  The loop instead
multiplies the inverse by `self`, so `M2 ** -2` evaluates to
`inverse(M2) @ M2`, the identity matrix, while `inverse(M2) @ inverse(M2)` is
not the identity. -/
theorem C3_pow_negative_multiplies_by_self :
    inverseE M2mat = .ok (some M2inv) ∧
    powE M2mat (-2) = .ok (some (identityM 3)) ∧
    matmulE M2inv M2inv ≠ .ok (identityM 3) := by
  refine ⟨?_, ?_, ?_⟩
  · norm_num [M2mat, M2inv, inverseE, is_squareE, columnsE, determinant, detF, detStep,
      detSum, sizeE, fillNew, seqE, minor, submatrixE, getE, adjugateE, cofactorE,
      transposeE, smulE, imulE, copyE, List.range_succ]
  · norm_num [M2mat, powE, is_squareE, columnsE, copyE, sizeE, fillNew, seqE, getE,
      inverseE, determinant, detF, detStep, detSum, minor, submatrixE, adjugateE,
      cofactorE, transposeE, smulE, imulE, powLoop, matmulE, dotE, identityM, mkMat,
      List.range_succ]
  · norm_num [M2inv, matmulE, columnsE, fillNew, seqE, getE, dotE, identityM, mkMat,
      List.range_succ]

/-- C2 (amended): for every square matrix of size at least 3 (not 2: see the
counterexample) with non-zero determinant, `inverse()` returns a matrix and
`A @ A.inverse()` is approximately the identity (`is_identity` is true). -/
theorem C2_amended_inverse_identity :
    ∀ (n : ℕ) (m : Mat), 3 ≤ n → m.length = n → Rect m → (m.headD []).length = n →
      ∀ d : ℚ, determinant m = .ok d → d ≠ 0 →
      ∃ inv res, inverseE m = .ok (some inv) ∧ matmulE m inv = .ok res ∧
        is_identityE res = .ok true := by
  intro n m hn hlen hrect hcols d hdet hd0
  have h := determinant_ok (n := n) (by omega) hlen hrect hcols
  rw [hdet] at h
  have hd : (toMatrix m n).det ≠ 0 := by
    have : d = (toMatrix m n).det := by simpa using h
    rw [← this]
    exact hd0
  exact inverse_product_identity hn hlen hrect hcols hd

/-- C2 witness: the scenario matrix `M2` of the source demo is 3×3 with
determinant 10, and `M2 @ M2.inverse()` passes the identity check. -/
theorem C2_amended_witness :
    ∃ inv res, inverseE M2mat = .ok (some inv) ∧ matmulE M2mat inv = .ok res ∧
      is_identityE res = .ok true :=
  C2_amended_inverse_identity 3 M2mat (by norm_num) rfl (by decide) rfl 10
    (by norm_num [M2mat, determinant, detF, detStep, detSum, columnsE, getE, minor,
      submatrixE, seqE, List.range_succ])
    (by norm_num)

/-- C5 (amended): `inverse()` returns the `None` sentinel, not an error, for
every non-square matrix and for every square matrix whose determinant
computation returns 0; it returns a matrix for square sizes at least 3 with
non-zero determinant.  However it raises `IndexError` (propagated from the
determinant recursion of C10) on the empty matrix, on 1×1 matrices, and on
2×2 matrices with non-zero determinant, so the claim's "never raises" needed
those exclusions. -/
theorem C5_amended_inverse_sentinel :
    (∀ m : Mat, is_squareE m = .ok false → inverseE m = .ok none) ∧
    (∀ m : Mat, is_squareE m = .ok true → determinant m = .ok 0 → inverseE m = .ok none) ∧
    (∀ (n : ℕ) (m : Mat), 3 ≤ n → m.length = n → Rect m → (m.headD []).length = n →
      ∀ d : ℚ, determinant m = .ok d → d ≠ 0 → ∃ inv, inverseE m = .ok (some inv)) ∧
    (∀ a : ℚ, inverseE [[a]] = .error .indexError) ∧
    inverseE ([] : Mat) = .error .indexError ∧
    (∀ a b c d : ℚ, a * d - b * c ≠ 0 → inverseE [[a, b], [c, d]] = .error .indexError) := by
  refine ⟨?_, ?_, ?_, fun a => rfl, rfl, ?_⟩
  · intro m h
    unfold inverseE
    simp [h]
  · intro m h hdet
    unfold inverseE
    simp [h, hdet]
  · intro n m hn hlen hrect hcols d hdet hd0
    have h := determinant_ok (n := n) (by omega) hlen hrect hcols
    rw [hdet] at h
    have hd : (toMatrix m n).det ≠ 0 := by
      have : d = (toMatrix m n).det := by simpa using h
      rw [← this]
      exact hd0
    obtain ⟨inv, res, h1, _, _⟩ := inverse_product_identity hn hlen hrect hcols hd
    exact ⟨inv, h1⟩
  · intro a b c d h
    have h1 : is_squareE [[a, b], [c, d]] = .ok true := rfl
    have h2 : determinant [[a, b], [c, d]] = .ok (a * d - b * c) := rfl
    have h3 : sizeE [[a, b], [c, d]] = .ok (2, 2) := rfl
    have h4 : fillNew 2 2 (fun i j => minor [[a, b], [c, d]] i j) = .error .indexError := rfl
    unfold inverseE
    simp [h1, h2, h3, h4, h]

/-- C5 witness: applying the sentinel clauses at concrete inputs: the
non-square `[[1, 2]]` gives `None`, and the singular square
`[[1, 2], [2, 4]]` gives `None`. -/
theorem C5_amended_witness :
    inverseE [[(1:ℚ), 2]] = .ok none ∧ inverseE [[(1:ℚ), 2], [2, 4]] = .ok none := by
  constructor
  · exact C5_amended_inverse_sentinel.1 [[(1:ℚ), 2]] rfl
  · refine C5_amended_inverse_sentinel.2.1 [[(1:ℚ), 2], [2, 4]] rfl ?_
    have h : determinant [[(1:ℚ), 2], [2, 4]] = .ok (1 * 4 - 2 * 2) := rfl
    rw [h]
    norm_num

/-- C6: the determinant of a 2×2 `[[a, b], [c, d]]` is `a*d - b*c` (so the
scenario `[[4, 6], [3, 8]]` gives 14); for square sizes `n ≥ 3` it is the
Laplace expansion along row 0, the sum over columns `c` of
`self[0, c] * minor(0, c) * (-1)^c` (and each of those minors succeeds); a
non-square matrix (at least one row, row length different from the row count)
fails with the `ValueError` carrying the non-square message. -/
theorem C6_determinant_spec :
    (∀ a b c d : ℚ, determinant [[a, b], [c, d]] = .ok (a * d - b * c)) ∧
    determinant [[(4:ℚ), 6], [3, 8]] = .ok 14 ∧
    (∀ (n : ℕ) (m : Mat), 3 ≤ n → m.length = n → Rect m → (m.headD []).length = n →
      ∃ f : ℕ → ℚ, (∀ c < n, minor m 0 c = .ok (f c)) ∧
        determinant m = .ok (((List.range n).map fun c => get m 0 c * f c * (-1) ^ c).sum)) ∧
    (∀ m : Mat, m ≠ [] → m.length ≠ (m.headD []).length →
      determinant m = .error (.valueError msgNotSquare)) := by
  refine ⟨fun a b c d => rfl, ?_, ?_, ?_⟩
  · have h : determinant [[(4:ℚ), 6], [3, 8]] = .ok (4 * 8 - 6 * 3) := rfl
    rw [h]
    norm_num
  · intro n m hn hlen hrect hcols
    obtain ⟨k, rfl⟩ : ∃ k, n = k + 1 := ⟨n - 1, by omega⟩
    refine ⟨fun c => (toMatrix (subMat m (k + 1) 0 c) k).det, fun c hc => ?_, ?_⟩
    · have := minor_ok hn hlen hrect hcols (t := 0) (u := c) (by omega) hc
      simpa using this
    · rw [determinant_ok (by omega) hlen hrect hcols]
      congr 1
      rw [listSum_range, ← Fin.sum_univ_eq_sum_range,
        Matrix.det_succ_row_zero (toMatrix m (k + 1))]
      refine Finset.sum_congr rfl fun j _ => ?_
      have h2 : toMatrix m (k + 1) 0 j = get m 0 (j : ℕ) := by
        show get m ((0 : Fin (k + 1)) : ℕ) (j : ℕ) = get m 0 (j : ℕ)
        norm_num
      have h3 : (toMatrix (subMat m (k + 1) 0 (j : ℕ)) k).det =
          ((toMatrix m (k + 1)).submatrix Fin.succ j.succAbove).det := by
        have h := toMatrix_subMat (m := m) (0 : Fin (k + 1)) j
        rw [Fin.succAbove_zero] at h
        rw [show ((0 : Fin (k + 1)) : ℕ) = 0 from rfl] at h
        rw [h]
      simp only [h2, h3]
      ring
  · intro m hne hsq
    have hc := columnsE_of_ne_nil hne
    obtain ⟨l, hl⟩ : ∃ l, m.length = l + 1 := by
      cases m with
      | nil => exact absurd rfl hne
      | cons r t => exact ⟨t.length, by simp⟩
    rw [determinant, hl, detF_succ]
    unfold detStep
    simp only [hc]
    rw [if_neg hsq]

/-- C6 witness: the Laplace clause applied to the 3×3 demo matrix `M2` and
the non-square clause applied to `[[1, 2]]`. -/
theorem C6_determinant_witness :
    (∃ f : ℕ → ℚ, (∀ c < 3, minor M2mat 0 c = .ok (f c)) ∧
      determinant M2mat =
        .ok (((List.range 3).map fun c => get M2mat 0 c * f c * (-1) ^ c).sum)) ∧
    determinant [[(1:ℚ), 2]] = .error (.valueError msgNotSquare) :=
  ⟨C6_determinant_spec.2.2.1 3 M2mat (by norm_num) rfl (by decide) rfl,
    C6_determinant_spec.2.2.2 [[(1:ℚ), 2]] (by decide) (by decide)⟩

theorem firstNZ_range'_none {m : Mat} {r : ℕ} :
    ∀ (b a : ℕ), (firstNZ m r (List.range' a b) = none ↔
      ∀ c, a ≤ c → c < a + b → get m r c = 0)
  | 0, a => by
    simp only [List.range']
    constructor
    · intro _ c hc1 hc2
      omega
    · intro _
      rfl
  | b + 1, a => by
    rw [List.range'_succ a b 1]
    unfold firstNZ
    by_cases h : get m r a ≠ 0
    · rw [if_pos h]
      constructor
      · intro hx
        exact absurd hx (by simp)
      · intro hall
        exact absurd (hall a (le_refl a) (by omega)) h
    · rw [if_neg h]
      rw [firstNZ_range'_none b (a + 1)]
      push_neg at h
      constructor
      · intro hall c hc1 hc2
        rcases Nat.eq_or_lt_of_le hc1 with rfl | hlt
        · exact h
        · exact hall c hlt (by omega)
      · intro hall c hc1 hc2
        exact hall c (by omega) (by omega)

theorem firstNZ_range'_some {m : Mat} {r : ℕ} :
    ∀ (b a c₀ : ℕ), (firstNZ m r (List.range' a b) = some c₀ ↔
      (a ≤ c₀ ∧ c₀ < a + b ∧ get m r c₀ ≠ 0 ∧ ∀ c', a ≤ c' → c' < c₀ → get m r c' = 0))
  | 0, a, c₀ => by
    simp only [List.range']
    unfold firstNZ
    constructor
    · intro hx
      exact absurd hx (by simp)
    · rintro ⟨h1, h2, _⟩
      omega
  | b + 1, a, c₀ => by
    rw [List.range'_succ a b 1]
    unfold firstNZ
    by_cases h : get m r a ≠ 0
    · rw [if_pos h]
      constructor
      · intro hx
        have : a = c₀ := by simpa using hx
        subst this
        exact ⟨le_refl a, by omega, h, fun c' hc1 hc2 => by omega⟩
      · rintro ⟨h1, h2, h3, h4⟩
        have : a = c₀ := by
          by_contra hne
          exact h (h4 a (le_refl a) (by omega))
        simp [this]
    · rw [if_neg h]
      rw [firstNZ_range'_some b (a + 1) c₀]
      push_neg at h
      constructor
      · rintro ⟨h1, h2, h3, h4⟩
        refine ⟨by omega, by omega, h3, fun c' hc1 hc2 => ?_⟩
        rcases Nat.eq_or_lt_of_le hc1 with rfl | hlt
        · exact h
        · exact h4 c' hlt hc2
      · rintro ⟨h1, h2, h3, h4⟩
        have ha : a ≠ c₀ := by
          intro hx
          subst hx
          exact h3 h
        refine ⟨by omega, by omega, h3, fun c' hc1 hc2 => h4 c' (by omega) hc2⟩

theorem firstNZ_range_none {m : Mat} {r cols : ℕ} :
    firstNZ m r (List.range cols) = none ↔ ZeroRow m cols r := by
  rw [List.range_eq_range', firstNZ_range'_none]
  unfold ZeroRow
  constructor
  · intro h c hc
    exact h c (by omega) (by omega)
  · intro h c hc1 hc2
    exact h c (by omega)

theorem firstNZ_range_some {m : Mat} {r cols c : ℕ} :
    firstNZ m r (List.range cols) = some c ↔ LeadCol m cols r c := by
  rw [List.range_eq_range', firstNZ_range'_some]
  unfold LeadCol
  constructor
  · rintro ⟨_, h2, h3, h4⟩
    exact ⟨by omega, h3, fun c' hc' => h4 c' (by omega) hc'⟩
  · rintro ⟨h1, h2, h3⟩
    exact ⟨by omega, by omega, h2, fun c' _ hc' => h3 c' hc'⟩

theorem LeadCol_not_ZeroRow {m : Mat} {cols r c : ℕ} (h : LeadCol m cols r c) :
    ¬ ZeroRow m cols r := by
  intro hz
  exact h.2.1 (hz c h.1)

theorem LeadCol_unique {m : Mat} {cols r c c' : ℕ} (h : LeadCol m cols r c)
    (h' : LeadCol m cols r c') : c = c' := by
  rcases Nat.lt_trichotomy c c' with hlt | heq | hgt
  · exact absurd (h'.2.2 c hlt) h.2.1
  · exact heq
  · exact absurd (h.2.2 c' hgt) h'.2.1

theorem echelonLoop_cons_none {m : Mat} {cols a : ℕ} {rest : List ℕ} {zr : Bool}
    (h : firstNZ m a (List.range cols) = none) :
    echelonLoop m cols (a :: rest) zr = echelonLoop m cols rest true := by
  simp only [echelonLoop, h]

theorem echelonLoop_cons_some {m : Mat} {cols a c₀ : ℕ} {rest : List ℕ} {zr : Bool}
    (h : firstNZ m a (List.range cols) = some c₀) :
    echelonLoop m cols (a :: rest) zr =
      if zr = true ∨ get m (a + 1) c₀ ≠ 0 then false else echelonLoop m cols rest zr := by
  simp only [echelonLoop, h]

theorem echelonLoop_iff {m : Mat} {cols : ℕ} :
    ∀ (b a : ℕ) (zr : Bool),
      (echelonLoop m cols (List.range' a b) zr = true ↔
        ∀ i < b, ∀ c, LeadCol m cols (a + i) c →
          ((zr = false ∧ ∀ j < i, ¬ ZeroRow m cols (a + j)) ∧ get m (a + i + 1) c = 0))
  | 0, a, zr => by
    simp only [List.range']
    unfold echelonLoop
    constructor
    · intro _ i hi
      omega
    · intro _
      rfl
  | b + 1, a, zr => by
    rw [List.range'_succ a b 1]
    rcases hfz : firstNZ m a (List.range cols) with _ | c₀
    · have hz : ZeroRow m cols a := firstNZ_range_none.mp hfz
      rw [echelonLoop_cons_none hfz]
      rw [echelonLoop_iff b (a + 1) true]
      constructor
      · intro hall i hi c hlead
        rcases i with _ | i'
        · exact absurd hlead (fun hl => LeadCol_not_ZeroRow hl hz)
        · have := hall i' (by omega) c (by rw [show a + 1 + i' = a + (i' + 1) by omega]; exact hlead)
          exact absurd this.1.1 (by simp)
      · intro hall i hi c hlead
        have := hall (i + 1) (by omega) c
          (by rw [show a + (i + 1) = a + 1 + i by omega]; exact hlead)
        have hcontra : ∀ j < i + 1, ¬ ZeroRow m cols (a + j) := (this.1).2
        exact absurd hz (by simpa using hcontra 0 (by omega))
    · have hlead₀ : LeadCol m cols a c₀ := firstNZ_range_some.mp hfz
      rw [echelonLoop_cons_some hfz]
      by_cases hcond : zr = true ∨ get m (a + 1) c₀ ≠ 0
      · rw [if_pos hcond]
        constructor
        · intro hx
          exact absurd hx (by simp)
        · intro hall
          have := hall 0 (by omega) c₀ (by simpa using hlead₀)
          rcases hcond with hzr | hnz
          · rw [this.1.1] at hzr
            exact absurd hzr (by simp)
          · exact (hnz (by simpa using this.2)).elim
      · push_neg at hcond
        obtain ⟨hzr, hbelow⟩ := hcond
        have hzr' : zr = false := by
          cases zr
          · rfl
          · exact absurd rfl hzr
        subst hzr'
        rw [if_neg (by simp [hbelow])]
        rw [echelonLoop_iff b (a + 1) false]
        constructor
        · intro hall i hi c hlead
          rcases i with _ | i'
          · have hc : c = c₀ := LeadCol_unique (by simpa using hlead) hlead₀
            subst hc
            exact ⟨⟨rfl, fun j hj => by omega⟩, by simpa using hbelow⟩
          · have := hall i' (by omega) c
              (by rw [show a + 1 + i' = a + (i' + 1) by omega]; exact hlead)
            refine ⟨⟨rfl, fun j hj => ?_⟩, by
              rw [show a + (i' + 1) + 1 = a + 1 + i' + 1 by omega]
              exact this.2⟩
            rcases j with _ | j'
            · simpa using LeadCol_not_ZeroRow hlead₀
            · have := this.1.2 j' (by omega)
              rw [show a + (j' + 1) = a + 1 + j' by omega]
              exact this
        · intro hall i hi c hlead
          have := hall (i + 1) (by omega) c
            (by rw [show a + (i + 1) = a + 1 + i by omega]; exact hlead)
          refine ⟨⟨rfl, fun j hj => ?_⟩, by
            rw [show a + 1 + i + 1 = a + (i + 1) + 1 by omega]
            exact this.2⟩
          have := this.1.2 (j + 1) (by omega)
          rw [show a + 1 + j = a + (j + 1) by omega]
          exact this

/-- C7 (amended): the scan only examines rows `0 .. rows-2`, so `is_echelon`
is true exactly when every NON-LAST row that has a leading non-zero column
satisfies: no row above it is entirely zero, and the entry directly below its
leading column is zero.  A zero row directly above a non-zero LAST row is not
detected (see the counterexample), which is where the claim needed amending;
matrices with at most one row are vacuously true. -/
theorem C7_amended_echelon_scan (m : Mat) (hrect : Rect m) :
    is_echelonB m = true ↔
      ∀ r, r + 1 < m.length → ∀ c, LeadCol m ((m.headD []).length) r c →
        ((∀ r' < r, ¬ ZeroRow m ((m.headD []).length) r') ∧ get m (r + 1) c = 0) := by
  unfold is_echelonB
  rw [List.range_eq_range', echelonLoop_iff (m.length - 1) 0 false]
  constructor
  · intro hall r hr c hlead
    have := hall r (by omega) c (by simpa using hlead)
    exact ⟨fun r' hr' => by simpa using this.1.2 r' hr', by simpa using this.2⟩
  · intro hall i hi c hlead
    have := hall i (by omega) c (by simpa using hlead)
    exact ⟨⟨rfl, fun j hj => by simpa using this.1 j hj⟩, by simpa using this.2⟩

/-- C7 witness: the amended characterisation instantiated at the 2×2 identity
(in echelon form: row 0 leads at column 0 and the entry below is 0). -/
theorem C7_amended_witness :
    is_echelonB [[(1:ℚ), 0], [0, 1]] = true ↔
      ∀ r, r + 1 < 2 → ∀ c, LeadCol [[(1:ℚ), 0], [0, 1]] 2 r c →
        ((∀ r' < r, ¬ ZeroRow [[(1:ℚ), 0], [0, 1]] 2 r') ∧
          get [[(1:ℚ), 0], [0, 1]] (r + 1) c = 0) :=
  C7_amended_echelon_scan [[(1:ℚ), 0], [0, 1]] (by decide)

theorem sizeE_of_ne_nil {m : Mat} (hne : m ≠ []) :
    sizeE m = .ok (m.length, (m.headD []).length) := by
  unfold sizeE
  rw [columnsE_of_ne_nil hne]

theorem mkMat_ne_nil {r c : ℕ} {f : ℕ → ℕ → ℚ} (hr : 0 < r) : mkMat r c f ≠ [] := by
  intro h
  have : (mkMat r c f).length = 0 := by rw [h]; rfl
  rw [mkMat_length] at this
  omega

theorem copyE_rect {m : Mat} (hrect : Rect m) (hne : m ≠ []) :
    copyE m = .ok (mkMat m.length ((m.headD []).length) (get m)) := by
  unfold copyE
  simp only [sizeE_of_ne_nil hne]
  exact fillNew_ok _ fun i hi j hj => getE_ok hrect hi hj

theorem iaddE_cases (A B : Mat) (hA : Rect A) (hB : Rect B) (hAne : A ≠ []) (hBne : B ≠ []) :
    ((A.length, (A.headD []).length) ≠ (B.length, (B.headD []).length) →
      iaddE A B = (A, some (.valueError msgDim))) ∧
    ((A.length, (A.headD []).length) = (B.length, (B.headD []).length) →
      iaddE A B = (mkMat A.length ((A.headD []).length)
        (fun r c => get A r c + get B r c), none)) := by
  constructor
  · intro hne
    unfold iaddE
    simp only [sizeE_of_ne_nil hAne, sizeE_of_ne_nil hBne]
    rw [if_pos hne]
  · intro heq
    have hBl : B.length = A.length := by
      have := congrArg Prod.fst heq
      simpa using this.symm
    have hBc : (B.headD []).length = (A.headD []).length := by
      have := congrArg Prod.snd heq
      simpa using this.symm
    unfold iaddE
    simp only [sizeE_of_ne_nil hAne, sizeE_of_ne_nil hBne]
    rw [if_neg (not_not_intro heq)]
    have hfill : fillNew A.length ((A.headD []).length) (fun i j =>
        match getE A i j with
        | .error e => .error e
        | .ok x =>
          match getE B i j with
          | .error e => .error e
          | .ok y => .ok (x + y)) =
        .ok (mkMat A.length ((A.headD []).length) fun r c => get A r c + get B r c) := by
      refine fillNew_ok _ fun i hi j hj => ?_
      have hgA := getE_ok hA hi hj
      have hgB := getE_ok hB (m := B) (i := i) (j := j) (by omega) (by rw [hBc]; exact hj)
      simp only [hgA, hgB]
    simp only [hfill]

/-- C9 (amended): for matrices with at least one row each, in-place addition
fails with the `DimensionMismatch` `ValueError` exactly when the shapes
(rows, columns) differ, the shape check precedes every element write so the
left operand's state is unchanged on failure, and on success the result is
the element-wise sum; `A + B` performs the same computation on a private
copy of `A`, mutating neither operand.  When either operand has no rows, the
`size` query itself raises `IndexError` (not `DimensionMismatch`), again
before any write. -/
theorem C9_amended_iadd :
    (∀ A B : Mat, Rect A → Rect B → A ≠ [] → B ≠ [] →
      (((A.length, (A.headD []).length) ≠ (B.length, (B.headD []).length) →
        iaddE A B = (A, some (.valueError msgDim))) ∧
      ((A.length, (A.headD []).length) = (B.length, (B.headD []).length) →
        iaddE A B = (mkMat A.length ((A.headD []).length)
          (fun r c => get A r c + get B r c), none)))) ∧
    (∀ A B : Mat, A = [] ∨ B = [] → iaddE A B = (A, some .indexError)) ∧
    (∀ A B : Mat, Rect A → Rect B → A ≠ [] → B ≠ [] →
      (((A.length, (A.headD []).length) = (B.length, (B.headD []).length) →
        addE A B = .ok (mkMat A.length ((A.headD []).length)
          (fun r c => get A r c + get B r c))) ∧
      ((A.length, (A.headD []).length) ≠ (B.length, (B.headD []).length) →
        addE A B = .error (.valueError msgDim)))) := by
  refine ⟨fun A B hA hB hAne hBne => iaddE_cases A B hA hB hAne hBne, ?_, ?_⟩
  · intro A B h
    rcases h with rfl | rfl
    · rfl
    · cases A with
      | nil => rfl
      | cons r t => rfl
  · intro A B hA hB hAne hBne
    have hlen : 0 < A.length := List.length_pos.mpr hAne
    have hcopy := copyE_rect hA hAne
    have hkey := iaddE_cases (mkMat A.length ((A.headD []).length) (get A)) B
      Rect_mkMat hB (mkMat_ne_nil hlen) hBne
    have hshape : ((mkMat A.length ((A.headD []).length) (get A)).length,
        ((mkMat A.length ((A.headD []).length) (get A)).headD []).length) =
        (A.length, (A.headD []).length) := by
      rw [mkMat_length, mkMat_headD hlen]
      simp
    constructor
    · intro heq
      unfold addE
      simp only [hcopy]
      have happ := hkey.2 (by rw [hshape]; exact heq)
      rw [mkMat_length] at happ
      rw [show ((mkMat A.length ((A.headD []).length) (get A)).headD []).length =
          (A.headD []).length from by rw [mkMat_headD hlen]; simp] at happ
      simp only [happ]
      congr 1
      refine mkMat_ext fun i hi j hj => ?_
      rw [get_mkMat hi hj]
    · intro hne
      unfold addE
      simp only [hcopy, hkey.1 (by rw [hshape]; exact hne)]

/-- C9 witness: the amended clauses applied at concrete inputs: a matching
1×1 addition succeeds element-wise, and a 1×1 plus 2×2 fails with the
`DimensionMismatch` `ValueError`, leaving the left operand unchanged. -/
theorem C9_amended_witness :
    iaddE [[(1:ℚ)]] [[2]] =
      (mkMat 1 1 (fun r c => get [[(1:ℚ)]] r c + get [[(2:ℚ)]] r c), none) ∧
    iaddE [[(1:ℚ)]] [[2, 3], [4, 5]] = ([[(1:ℚ)]], some (.valueError msgDim)) :=
  ⟨(C9_amended_iadd.1 [[(1:ℚ)]] [[2]] (by decide) (by decide) (by decide) (by decide)).2 rfl,
    (C9_amended_iadd.1 [[(1:ℚ)]] [[2, 3], [4, 5]] (by decide) (by decide) (by decide)
      (by decide)).1 (by decide)⟩

theorem normJStart_ok {m : Mat} (hne : m ≠ []) (v : Option ℤ) :
    normJStart m v = .ok (normIdx v ((m.headD []).length) 0) := by
  unfold normJStart normIdx
  cases v with
  | none => rfl
  | some x =>
    by_cases hx : x < 0
    · simp only [if_pos hx, columnsE_of_ne_nil hne]
    · simp only [if_neg hx]

theorem normJStop_ok {m : Mat} (hne : m ≠ []) (v : Option ℤ) :
    normJStop m v = .ok (normIdx v ((m.headD []).length) ((m.headD []).length)) := by
  unfold normJStop normIdx
  cases v with
  | none => simp only [columnsE_of_ne_nil hne]
  | some x =>
    by_cases hx : x < 0
    · simp only [if_pos hx, columnsE_of_ne_nil hne]
    · simp only [if_neg hx]

theorem getPyIdx_ok {α : Type} {l : List α} {i : ℤ} (d : α) (hi0 : 0 ≤ i)
    (hi : i.toNat < l.length) : getPyIdx l i = .ok (l.getD i.toNat d) := by
  unfold getPyIdx
  rw [if_neg (by omega : ¬ i < 0), if_pos hi0, get?_eq_some_getD d hi]

theorem getPy2_ok {m : Mat} (hrect : Rect m) {i j : ℤ} (hi0 : 0 ≤ i) (hj0 : 0 ≤ j)
    (hi : i.toNat < m.length) (hj : j.toNat < (m.headD []).length) :
    getPy2 m i j = .ok (get m i.toNat j.toNat) := by
  unfold getPy2
  have hlen : j.toNat < (m.getD i.toNat []).length := by
    rw [Rect_row_length hrect hi]
    exact hj
  simp only [getPyIdx_ok [] hi0 hi, getPyIdx_ok 0 hj0 hlen]
  rfl

/-- C8 counterexample: the claim quantifies over every matrix and every pair
of slice ranges and says an empty resulting extent is the canonical empty
matrix, never an error.  First conjunct: slicing the empty matrix with
`[:, :]` (an extent of 0 rows, which the claim says yields the empty matrix)
raises `IndexError` instead, because the absent column stop is normalised by
querying `self.columns`, which fails on a matrix with no rows (C4) before the
extent is ever examined.  Second conjunct: the claimed "returns a new matrix
copying the selected rectangular region" also fails for an out-of-range stop:
`[0:10, :]` on a 2×2 matrix raises `IndexError` during the copy (the fill
indexes row 2) rather than clamping the extent. -/
theorem C8_counter_slice_errors :
    getSliceE ([] : Mat) none none none none = .error .indexError ∧
    getSliceE [[(1:ℚ), 2], [3, 4]] none (some 10) none none = .error .indexError := by
  decide

/-- C8 (amended): on matrices with at least one row and for slices whose
normalised endpoints are in range or whose extent is empty, slice access
behaves as the claim states — endpoints are normalised exactly as described
(an absent start is 0, an absent stop is the dimension size, a negative value
has the dimension size added); an extent with fewer than one row or one
column yields the canonical empty matrix with no error (first clause, with no
bounds required); a non-empty extent with normalised endpoints within bounds
returns a new matrix copying the selected rectangular region (second clause).
On the empty matrix an absent or negative column endpoint raises `IndexError`
from the `columns` query itself, and an out-of-range non-empty extent raises
`IndexError` during the copy instead of clamping (see the counterexample);
those cases are excluded here.  Third clause: the `M3[1:, 2:-1]` scenario on
the 3×5 demo matrix yields the expected 2×2 submatrix. -/
theorem C8_slice_semantics :
    (∀ (m : Mat) (istart istop jstart jstop : Option ℤ), m ≠ [] →
      (normIdx istop m.length (m.length : ℤ) - normIdx istart m.length 0 < 1 ∨
        normIdx jstop ((m.headD []).length) (((m.headD []).length : ℕ) : ℤ) -
          normIdx jstart ((m.headD []).length) 0 < 1) →
      getSliceE m istart istop jstart jstop = .ok []) ∧
    (∀ (m : Mat) (istart istop jstart jstop : Option ℤ), Rect m → m ≠ [] →
      ∀ is' io' js' jo' : ℤ,
        is' = normIdx istart m.length 0 → io' = normIdx istop m.length (m.length : ℤ) →
        js' = normIdx jstart ((m.headD []).length) 0 →
        jo' = normIdx jstop ((m.headD []).length) (((m.headD []).length : ℕ) : ℤ) →
        0 ≤ is' → io' ≤ (m.length : ℤ) → 0 ≤ js' → jo' ≤ (((m.headD []).length : ℕ) : ℤ) →
        1 ≤ io' - is' → 1 ≤ jo' - js' →
        getSliceE m istart istop jstart jstop =
          .ok (mkMat (io' - is').toNat (jo' - js').toNat
            (fun r c => get m (is'.toNat + r) (js'.toNat + c)))) ∧
    getSliceE M3mat (some 1) none (some 2) (some (-1)) = .ok [[1, 4], [0, 3]] := by
  refine ⟨?_, ?_, by decide⟩
  · intro m istart istop jstart jstop hne hempty
    unfold getSliceE
    simp only [normJStart_ok hne, normJStop_ok hne]
    rw [if_pos hempty]
  · intro m istart istop jstart jstop hrect hne is' io' js' jo' his hio hjs hjo
      h1 h2 h3 h4 h5 h6
    unfold getSliceE
    simp only [normJStart_ok hne, normJStop_ok hne, ← his, ← hio, ← hjs, ← hjo]
    rw [if_neg (by omega)]
    refine fillNew_ok _ fun r hr c hc => ?_
    have hiN : (is' + (r : ℤ)).toNat = is'.toNat + r := by omega
    have hjN : (js' + (c : ℤ)).toNat = js'.toNat + c := by omega
    have hrlt : (is' + (r : ℤ)).toNat < m.length := by omega
    have hclt : (js' + (c : ℤ)).toNat < (m.headD []).length := by omega
    rw [getPy2_ok hrect (by omega) (by omega) hrlt hclt, hiN, hjN]

/-- C8 witness: the in-range clause applied to the demo 3×5 matrix with the
scenario slice `[1:, 2:-1]` (normalised endpoints 1, 3, 2, 4). -/
theorem C8_slice_witness :
    getSliceE M3mat (some 1) none (some 2) (some (-1)) =
      .ok (mkMat 2 2 fun r c => get M3mat (1 + r) (2 + c)) :=
  C8_slice_semantics.2.1 M3mat (some 1) none (some 2) (some (-1)) (by decide) (by decide)
    1 3 2 4 (by decide) (by decide) (by decide) (by decide) (by decide) (by decide)
    (by decide) (by decide) (by decide) (by decide)

end MatrixPy
